import Mathlib

/-!
Verification of the MirrorPool reflection engine.

This file gives a shallow embedding of the algorithmic core of the
repository: the similarity scorer, concept extraction, evolution tracking
and stage persistence of `lib/reflection-engine.js` (sqlite variant), the
in-memory engine's echo search and ripple tracer (second variant in the
same file), and the theme/consistency/depth computations of the
`PatternDetector` class.

Conventions of the embedding:
* texts are `List Char`; JavaScript numbers are modelled as exact
  rationals `ℚ` (so `x / 0 = 0` where JavaScript would produce `NaN`);
* `text.toLowerCase().split(/\s+/)` is modelled by `jsSplitWs` composed
  with character-wise lowering; note that in JavaScript splitting the
  empty string yields `[""]`, and leading or trailing whitespace
  contributes an empty chunk — `jsSplitWs` reproduces this;
* JavaScript `Set`s of string tokens become `Finset (List Char)`;
* sqlite tables become lists of records, `Map`s become association lists
  whose entry order models the insertion order of a JavaScript `Map`.
-/

set_option maxHeartbeats 1000000



/-- Helper for `jsSplitWs`.  The flag records whether we are inside a
whitespace run whose chunk boundary has already been emitted (JavaScript
`split(/\s+/)` treats a maximal whitespace run as a single separator). -/
def jsSplitWsAux : Bool → List Char → List (List Char)
  | _, [] => [[]]
  | inWs, c :: rest =>
    if c.isWhitespace then
      if inWs then jsSplitWsAux true rest
      else [] :: jsSplitWsAux true rest
    else
      match jsSplitWsAux false rest with
      | [] => [[c]]
      | t :: ts => (c :: t) :: ts

/-- JavaScript `s.split(/\s+/)` on the character list of `s`: chunks between
maximal whitespace runs; a leading or trailing whitespace run contributes an
empty chunk, and the empty string yields `[[]]`. -/
def jsSplitWs (l : List Char) : List (List Char) := jsSplitWsAux false l

/-- Model of `text.toLowerCase()`, character-wise. -/
def jsLower (t : List Char) : List Char := t.map Char.toLower

/-- The token set `new Set(text.toLowerCase().split(/\s+/))`. -/
def tokensOf (t : List Char) : Finset (List Char) := (jsSplitWs (jsLower t)).toFinset

/-- Model of `ReflectionEngine.calculateSimilarity` (sqlite variant, identical code in
`PatternDetector.calculateSimilarity`): Jaccard index
`intersection.size / union.size` of the two token sets `words1`, `words2`. -/
def calculateSimilarity (t1 t2 : List Char) : ℚ :=
  ((tokensOf t1 ∩ tokensOf t2).card : ℚ) / ((tokensOf t1 ∪ tokensOf t2).card : ℚ)

/-- Stop-word list of `ReflectionEngine.extractConcepts` (sqlite variant) and
of the in-memory engine's `extractKeywords`. -/
def engineStopWords : List (List Char) :=
  (["the", "a", "an", "and", "or", "but", "in", "on", "at", "to", "for"].map String.data)

/-- Model of `ReflectionEngine.extractConcepts`: lower-case, split on whitespace, keep
words longer than 3 characters that are not stop words, first 5. -/
def extractConcepts (thought : List Char) : List (List Char) :=
  ((jsSplitWs (jsLower thought)).filter
    (fun w => decide (3 < w.length) && !(engineStopWords.contains w))).take 5

/-- One row of the sqlite `reflections` table (the fields the claims use).
`evolutionStage` has the schema default 1. -/
structure Reflection where
  id : Nat
  thought : List Char
  evolutionStage : Nat
  createdAt : Nat
deriving DecidableEq

/-- The `WHERE thought LIKE '%concept%'` filter: sqlite `LIKE` is
case-insensitive on ASCII, so the (already lowercased) concept is matched as a
substring of the lowercased thought. -/
def likeMatches (concept : List Char) (r : Reflection) : Bool :=
  decide (concept <:+: jsLower r.thought)

/-- Model of `ORDER BY evolution_stage DESC, created_at DESC LIMIT 1`: keep the row
that is lexicographically larger by (stage, creation time). -/
def betterAncestor (a b : Reflection) : Reflection :=
  if a.evolutionStage < b.evolutionStage ∨
      (b.evolutionStage = a.evolutionStage ∧ a.createdAt < b.createdAt) then b else a

/-- The ancestor query of `trackEvolution` for one concept: among rows whose
thought contains the concept and whose id precedes the new row, return the
maximal row by (stage, creation time), if any. -/
def findAncestor (db : List Reflection) (tid : Nat) (concept : List Char) :
    Option Reflection :=
  match db.filter (fun r => likeMatches concept r && decide (r.id < tid)) with
  | [] => none
  | c :: cs => some (cs.foldl betterAncestor c)

/-- The record returned by `trackEvolution`. -/
structure EvolutionResult where
  stage : Nat
  ancestors : List Reflection
  growthDetected : Bool
deriving DecidableEq

/-- Model of `UPDATE reflections SET evolution_stage = ? WHERE id = ?`. -/
def updateStage (db : List Reflection) (tid stage : Nat) : List Reflection :=
  db.map (fun r => if r.id = tid then { r with evolutionStage := stage } else r)

/-- Model of `ReflectionEngine.trackEvolution`: collect one ancestor per extracted
concept, compute `newStage = Math.max(...ancestors.map(stage), 0) + 1`,
persist it on the new row, and report growth when the stage exceeds 1. -/
def trackEvolution (db : List Reflection) (thought : List Char) (tid : Nat) :
    EvolutionResult × List Reflection :=
  let ancestors := (extractConcepts thought).filterMap (findAncestor db tid)
  let maxStage := (ancestors.map Reflection.evolutionStage).foldr max 0
  let newStage := maxStage + 1
  (⟨newStage, ancestors, decide (1 < newStage)⟩, updateStage db tid newStage)

/-- Model of `AUTOINCREMENT`: a newly inserted row receives an id exceeding every
existing id. -/
def nextId (db : List Reflection) : Nat := (db.map Reflection.id).foldr max 0 + 1

/-- The ingestion path of `reflectThought` restricted to the `reflections`
table: insert the new row (stage defaults to 1), then let `trackEvolution`
compute and persist its stage.  Connection rows live in a separate table and
never touch stages. -/
def reflectThought (db : List Reflection) (thought : List Char) (now : Nat) :
    List Reflection × EvolutionResult :=
  let tid := nextId db
  let db1 := db ++ [⟨tid, thought, 1, now⟩]
  let res := trackEvolution db1 thought tid
  (res.2, res.1)

/-- One row of the sqlite `connections` table. -/
structure Connection where
  source_id : Nat
  target_id : Nat
  connection_type : List Char
  strength : ℚ
deriving DecidableEq

/-- Model of `createConnection`: a plain `INSERT INTO connections ...` — one new row
appended, no duplicate check and no validation of the referenced ids (the
schema declares foreign keys but the engine never enables enforcement). -/
def createConnection (conns : List Connection) (sourceId targetId : Nat)
    (ctype : List Char) (strength : ℚ) : List Connection :=
  conns ++ [⟨sourceId, targetId, ctype, strength⟩]

/-- Number of stored edges with a given (source, target, type) triple. -/
def countTriple (conns : List Connection) (s t : Nat) (ty : List Char) : Nat :=
  (conns.filter (fun c => decide (c.source_id = s) && decide (c.target_id = t) &&
    decide (c.connection_type = ty))).length

/-- A stored reflection of the in-memory engine (the second
`ReflectionEngine` class): the fields the ripple tracer and echo search
read.  `keywords` models the optional `keywords` property that `findEchoes`
reads as `reflection.keywords || []`. -/
structure MRef where
  original : List Char
  timestamp : Nat
  resonance : ℚ
  keywords : List (List Char)
deriving DecidableEq

/-- Association-list lookup, modelling `Map.prototype.get`. -/
def lookupA {α : Type} (k : Nat) : List (Nat × α) → Option α
  | [] => none
  | p :: rest => if p.1 = k then some p.2 else lookupA k rest

/-- The in-memory engine state: `this.reflections` (hash id → record) and
`this.connections` (hash id → connected hash ids). -/
structure EngineState where
  reflections : List (Nat × MRef)
  connections : List (Nat × List Nat)

/-- One entry of `waveData.thoughts`. -/
structure WaveEntry where
  id : Nat
  thought : List Char
  resonance : ℚ
deriving DecidableEq

/-- One ripple wave (`waveData`). -/
structure Wave where
  distance : Nat
  thoughts : List WaveEntry
  strength : ℚ
deriving DecidableEq

/-- The result of `traceRipples` (waves and accumulated impact). -/
structure RippleResult where
  waves : List Wave
  totalImpact : ℚ
deriving DecidableEq

/-- Inner loop of `traceRipples`: visit every connected id not yet in the
`visited` set; a newly visited id always joins the next wave, and also
contributes a wave entry when a reflection record exists for it. -/
def visitTargets (refls : List (Nat × MRef)) (strength : ℚ) :
    List Nat → List Nat → List Nat → List WaveEntry →
    List Nat × List Nat × List WaveEntry
  | [], visited, nextWave, entries => (visited, nextWave, entries)
  | t :: ts, visited, nextWave, entries =>
    if t ∈ visited then visitTargets refls strength ts visited nextWave entries
    else
      visitTargets refls strength ts (visited ++ [t]) (nextWave ++ [t])
        (match lookupA t refls with
          | some r => entries ++ [⟨t, r.original, r.resonance * strength⟩]
          | none => entries)

/-- One distance step of `traceRipples`: fold the inner loop over the
current wave's nodes. -/
def processWave (st : EngineState) (strength : ℚ) (wave visited : List Nat) :
    List Nat × List Nat × List WaveEntry :=
  wave.foldl
    (fun acc nodeId =>
      visitTargets st.reflections strength ((lookupA nodeId st.connections).getD [])
        acc.1 acc.2.1 acc.2.2)
    (visited, [], [])

/-- Model of `waveData.thoughts.reduce((sum, t) => sum + t.resonance, 0)`. -/
def sumResonance (l : List WaveEntry) : ℚ := l.foldl (fun s e => s + e.resonance) 0

/-- The distance loop of `traceRipples`; the last argument counts the
distances still allowed (`maxDistance - d + 1`), and the loop also stops as
soon as the current wave is empty. -/
def traceAux (st : EngineState) : List Nat → List Nat → Nat → Nat → List Wave × ℚ
  | _, _, _, 0 => ([], 0)
  | visited, wave, d, r + 1 =>
    if wave.isEmpty then ([], 0)
    else
      let strength : ℚ := 1 / (d : ℚ)
      let step := processWave st strength wave visited
      let rest := traceAux st step.1 step.2.1 (d + 1) r
      if step.2.2.isEmpty then rest
      else (⟨d, step.2.2, strength⟩ :: rest.1, sumResonance step.2.2 + rest.2)

/-- Model of `traceRipples(originThought, rippleDistance)`: the traversal operates on
the origin's content hash, abstracted here as `originId`; the visited set is
seeded with it and it forms the initial wave. -/
def traceRipples (st : EngineState) (originId : Nat) (maxDistance : Nat) :
    RippleResult :=
  let t := traceAux st [originId] [originId] 1 maxDistance
  ⟨t.1, t.2⟩

/-- The ids a wave contributes. -/
def waveIds (w : Wave) : List Nat := w.thoughts.map WaveEntry.id

/-- Model of `this.connections.get(thoughtId) || []`. -/
def connTargets (st : EngineState) (k : Nat) : List Nat :=
  (lookupA k st.connections).getD []

/-- Keys present in the connection map refer to stored reflections — true of
every state the engine itself can build, since both maps are keyed by the
same content hashes of stored thoughts. -/
def wellFormedState (st : EngineState) : Prop :=
  ∀ p ∈ st.connections, ∃ q ∈ st.reflections, q.1 = p.1

/-- The stop-word set of `PatternDetector.extractSignificantWords`. -/
def detectorStopWords : List (List Char) :=
  (["the", "a", "an", "and", "or", "but", "in", "on", "at", "to", "for",
    "of", "with", "by", "from", "up", "about", "into", "through", "during",
    "before", "after", "above", "below", "between", "under", "again",
    "further", "then", "once", "is", "am", "are", "was", "were", "be",
    "been", "being", "have", "has", "had", "do", "does", "did", "will",
    "would", "should", "could", "may", "might", "must", "can", "this",
    "that", "these", "those", "i", "you", "he", "she", "it", "we", "they",
    "them", "their", "what", "which", "who", "when", "where", "why", "how",
    "all", "each", "few", "more", "most", "other", "some", "such", "no",
    "nor", "not", "only", "own", "same", "so", "than", "too", "very",
    "s", "t", "d", "ll", "m", "ve", "re"].map String.data)

/-- Model of `PatternDetector.extractSignificantWords`: lower-case, split on
whitespace, keep words longer than 3 characters that are not stop words,
then drop purely numeric words (`/^\d+$/`). -/
def extractSignificantWords (thought : List Char) : List (List Char) :=
  ((jsSplitWs (jsLower thought)).filter
      (fun w => decide (3 < w.length) && !(detectorStopWords.contains w))).filter
    (fun w => !(w.all Char.isDigit))

/-- A thought row as consumed by the pattern detector (`thought` text and
`created_at` epoch time). -/
structure ThoughtRow where
  thought : List Char
  createdAt : ℚ
deriving DecidableEq

/-- Model of `timestamps.sort((a, b) => a - b)`: ascending numeric sort. -/
def sortTimestamps (l : List ℚ) : List ℚ := l.insertionSort (· ≤ ·)

/-- The gaps between successive timestamps
(`gaps.push(timestamps[i] - timestamps[i-1])`). -/
def gapsOf : List ℚ → List ℚ
  | a :: b :: rest => (b - a) :: gapsOf (b :: rest)
  | _ => []

/-- Model of `gaps.reduce((a, b) => a + b, 0)`. -/
def jsReduceSum (l : List ℚ) : ℚ := l.foldl (· + ·) 0

/-- The local `avgGap` of `calculateConsistency`. -/
def avgGapOf (gaps : List ℚ) : ℚ := jsReduceSum gaps / (gaps.length : ℚ)

/-- The local `variance` of `calculateConsistency`
(`gaps.reduce((sum, gap) => sum + Math.pow(gap - avgGap, 2), 0) / gaps.length`). -/
def varianceOf (gaps : List ℚ) : ℚ :=
  (gaps.foldl (fun s g => s + (g - avgGapOf gaps) * (g - avgGapOf gaps)) 0) /
    (gaps.length : ℚ)

/-- The inter-arrival gaps of a theme's occurrences: differences of the
ascending-sorted creation timestamps. -/
def interArrivalGaps (thoughts : List ThoughtRow) : List ℚ :=
  gapsOf (sortTimestamps (thoughts.map ThoughtRow.createdAt))

/-- Model of `PatternDetector.calculateConsistency`: 0 for fewer than two
occurrences, otherwise `1 / (1 + variance / avgGap)` over the inter-arrival
gaps. -/
def calculateConsistency (thoughts : List ThoughtRow) : ℚ :=
  if thoughts.length < 2 then 0
  else 1 / (1 + varianceOf (interArrivalGaps thoughts) / avgGapOf (interArrivalGaps thoughts))

/-- Model of `PatternDetector.calculateEvolution`: 0 for fewer than two occurrences,
otherwise one minus the similarity of the first and last occurrence texts. -/
def calculateEvolution (thoughts : List ThoughtRow) : ℚ :=
  if thoughts.length < 2 then 0
  else 1 - calculateSimilarity ((thoughts.head?.getD ⟨[], 0⟩).thought)
    ((thoughts.getLast?.getD ⟨[], 0⟩).thought)

/-- Model of `PatternDetector.calculateThemeDepth`:
`(frequency * 0.3 + consistency * 0.4 + evolution * 0.3) / 10` with the raw
occurrence count as frequency. -/
def calculateThemeDepth (count : Nat) (thoughts : List ThoughtRow) : ℚ :=
  ((count : ℚ) * (3 / 10) + calculateConsistency thoughts * (4 / 10) +
    calculateEvolution thoughts * (3 / 10)) / 10

/-- The accumulating value stored in `themeMap`. -/
structure ThemeData where
  count : Nat
  thoughts : List ThoughtRow
  depth : ℚ
deriving DecidableEq

/-- One `themeMap` update for one word occurrence: create the entry on first
sight (a JavaScript `Map` appends new keys at the end), then increment the
count, push the thought, and recompute the depth from the updated entry. -/
def bumpTheme (t : ThoughtRow) : List (List Char × ThemeData) → List Char →
    List (List Char × ThemeData)
  | [], w => [(w, ⟨1, [t], calculateThemeDepth 1 [t]⟩)]
  | (w', d) :: rest, w =>
    if w' = w then
      (w', ⟨d.count + 1, d.thoughts ++ [t],
        calculateThemeDepth (d.count + 1) (d.thoughts ++ [t])⟩) :: rest
    else (w', d) :: bumpTheme t rest w

/-- A theme as returned by `extractThemes`. -/
structure ThemeEntry where
  theme : List Char
  count : Nat
  thoughts : List ThoughtRow
  depth : ℚ
deriving DecidableEq

/-- The descending-by-depth comparison of `extractThemes`'s final sort. -/
def themeDeeper (a b : ThemeEntry) : Prop := b.depth ≤ a.depth

instance : DecidableRel themeDeeper :=
  fun a b => inferInstanceAs (Decidable (b.depth ≤ a.depth))

instance : IsTotal ThemeEntry themeDeeper := ⟨fun a b => le_total b.depth a.depth⟩

instance : IsTrans ThemeEntry themeDeeper := ⟨fun _ _ _ h1 h2 => le_trans h2 h1⟩

/-- Model of `PatternDetector.extractThemes`: accumulate the theme map over every
significant word of every thought, then emit the entries sorted by
descending depth. -/
def extractThemes (thoughts : List ThoughtRow) : List ThemeEntry :=
  ((thoughts.foldl
      (fun tm th => (extractSignificantWords th.thought).foldl (bumpTheme th) tm)
      []).map (fun p => ⟨p.1, p.2.count, p.2.thoughts, p.2.depth⟩)).insertionSort
    themeDeeper

/-- Mean of the gaps, written as the spec writes it. -/
def specMean (l : List ℚ) : ℚ := l.sum / (l.length : ℚ)

/-- Variance of the gaps, written as the spec writes it. -/
def specVariance (l : List ℚ) : ℚ :=
  ((l.map (fun g => (g - specMean l) * (g - specMean l))).sum) / (l.length : ℚ)

/-- The text of the depth counterexample corpus. -/
def waterWord : List Char := "water".data

/-- A thought saying "water" at time `i`. -/
def waterRow (i : Nat) : ThoughtRow := ⟨waterWord, (i : ℚ)⟩

/-- 33 thoughts saying "water" at times 0, 1, ..., 32. -/
def corpus33 : List ThoughtRow := (List.range 33).map waterRow

/-- The theme data after folding `rows` into an existing entry. -/
def themeAccum (d : ThemeData) (rows : List ThoughtRow) : ThemeData :=
  match rows with
  | [] => d
  | _ :: _ => ⟨d.count + rows.length, d.thoughts ++ rows,
      calculateThemeDepth (d.count + rows.length) (d.thoughts ++ rows)⟩

/-- Model of `extractKeywords` of the in-memory engine: lower-case split, keep words
longer than 3 characters that are not stop words, first 10. -/
def extractKeywords (text : List Char) : List (List Char) :=
  ((jsSplitWs (jsLower text)).filter
    (fun w => decide (3 < w.length) && !(engineStopWords.contains w))).take 10

/-- Model of `keywordOverlap`: set overlap `intersection.length / union.size` of two
keyword lists, 0 when the union is empty. -/
def keywordOverlap (keywords1 keywords2 : List (List Char)) : ℚ :=
  if 0 < (keywords1.toFinset ∪ keywords2.toFinset).card then
    ((keywords1.toFinset ∩ keywords2.toFinset).card : ℚ) /
      ((keywords1.toFinset ∪ keywords2.toFinset).card : ℚ)
  else 0

/-- An echo record pushed by `findEchoes`. -/
structure Echo where
  id : Nat
  similarity : ℚ
  keywordMatch : ℚ
  original : List Char
  timestamp : Nat
  resonance : ℚ
deriving DecidableEq

/-- The score `similarity * 0.6 + keywordMatch * 0.4` ranking echoes. -/
def combinedScore (e : Echo) : ℚ :=
  e.similarity * (6 / 10) + e.keywordMatch * (4 / 10)

/-- The echo comparison: descending combined score. -/
def echoBetter (a b : Echo) : Prop := combinedScore b ≤ combinedScore a

instance : DecidableRel echoBetter :=
  fun a b => inferInstanceAs (Decidable (combinedScore b ≤ combinedScore a))

instance : IsTotal Echo echoBetter :=
  ⟨fun a b => le_total (combinedScore b) (combinedScore a)⟩

instance : IsTrans Echo echoBetter := ⟨fun _ _ _ h1 h2 => le_trans h2 h1⟩

/-- Model of `limits[depth] || 7` with limits 3 for surface, 7 for deep, 15 for abyss. -/
def echoLimit (depth : List Char) : Nat :=
  if depth = ("surface".data) then 3
  else if depth = ("deep".data) then 7
  else if depth = ("abyss".data) then 15
  else 7

/-- Model of `findEchoes(thought, depth)` of the in-memory engine.  The per-candidate
`this.calculateSimilarity` of that class is a cosine similarity computed via
floating-point square roots, whose exact value is irrational in general; it
is therefore abstracted as the parameter `simf`, and every property stated
below holds for each choice of `simf`, in particular for the engine's.
Candidates pass when similarity exceeds 0.3 or keyword overlap exceeds 0.4;
they are sorted by descending combined score and cut to the depth limit. -/
def findEchoes (simf : List Char → List Char → ℚ) (refls : List (Nat × MRef))
    (thought : List Char) (depth : List Char) : List Echo :=
  ((refls.filterMap (fun p =>
      if 3 / 10 < simf thought p.2.original ∨
          4 / 10 < keywordOverlap (extractKeywords thought) p.2.keywords then
        some ⟨p.1, simf thought p.2.original,
          keywordOverlap (extractKeywords thought) p.2.keywords,
          p.2.original, p.2.timestamp, p.2.resonance⟩
      else none)).insertionSort echoBetter).take (echoLimit depth)

theorem jsSplitWsAux_ne_nil (b : Bool) (l : List Char) : jsSplitWsAux b l ≠ [] := by
  induction l generalizing b with
  | nil => simp [jsSplitWsAux]
  | cons c rest ih =>
    by_cases h : c.isWhitespace
    · cases b <;> simp [jsSplitWsAux, h, ih]
    · simp only [jsSplitWsAux, h, if_false, Bool.false_eq_true]
      cases hr : jsSplitWsAux false rest <;> simp

theorem tokensOf_nonempty (t : List Char) : (tokensOf t).Nonempty := by
  have h := jsSplitWsAux_ne_nil false (jsLower t)
  unfold tokensOf jsSplitWs
  cases hjs : jsSplitWsAux false (jsLower t) with
  | nil => exact absurd hjs h
  | cons a l => exact ⟨a, by simp [hjs]⟩

theorem card_union_tokens_pos (t1 t2 : List Char) :
    0 < ((tokensOf t1 ∪ tokensOf t2).card : ℚ) := by
  have h1 : (tokensOf t1).Nonempty := tokensOf_nonempty t1
  have : 0 < (tokensOf t1 ∪ tokensOf t2).card := by
    apply Finset.card_pos.mpr
    exact h1.mono Finset.subset_union_left
  exact_mod_cast this

theorem calculateSimilarity_nonneg (t1 t2 : List Char) :
    0 ≤ calculateSimilarity t1 t2 :=
  div_nonneg (by positivity) (le_of_lt (card_union_tokens_pos t1 t2))

theorem calculateSimilarity_le_one (t1 t2 : List Char) :
    calculateSimilarity t1 t2 ≤ 1 := by
  have hsub : (tokensOf t1 ∩ tokensOf t2).card ≤ (tokensOf t1 ∪ tokensOf t2).card :=
    Finset.card_le_card Finset.inter_subset_union
  unfold calculateSimilarity
  rw [div_le_one (card_union_tokens_pos t1 t2)]
  exact_mod_cast hsub

theorem calculateSimilarity_self (a : List Char) : calculateSimilarity a a = 1 := by
  unfold calculateSimilarity
  simp only [Finset.inter_self, Finset.union_self]
  have h : 0 < ((tokensOf a).card : ℚ) := by
    have := Finset.card_pos.mpr (tokensOf_nonempty a)
    exact_mod_cast this
  exact div_self (ne_of_gt h)

/-- C1 (amended): the set-based similarity of the sqlite engine and the
pattern detector is the Jaccard index of the JavaScript token sets; it lies
in `[0,1]`, and the token union is never empty, because JavaScript splitting
of any string (including the empty one) produces at least one token. -/
theorem calculateSimilarity_jaccard_bounds (t1 t2 : List Char) :
    calculateSimilarity t1 t2 =
      ((tokensOf t1 ∩ tokensOf t2).card : ℚ) / ((tokensOf t1 ∪ tokensOf t2).card : ℚ) ∧
    0 ≤ calculateSimilarity t1 t2 ∧ calculateSimilarity t1 t2 ≤ 1 ∧
    (tokensOf t1 ∪ tokensOf t2).Nonempty :=
  ⟨rfl, calculateSimilarity_nonneg t1 t2, calculateSimilarity_le_one t1 t2,
   (tokensOf_nonempty t1).mono Finset.subset_union_left⟩

/-- C1 (counterexample): on two empty texts the code returns 1, not 0 — the
JavaScript split of `""` yields `[""]`, so both token sets are `{""}` and the
Jaccard ratio is `1/1`.  The claim asserts the value 0 for this input. -/
theorem calculateSimilarity_empty_eq_one :
    calculateSimilarity [] [] = 1 ∧ calculateSimilarity [] [] ≠ 0 := by
  have htok : tokensOf [] = {([] : List Char)} := rfl
  have h : calculateSimilarity [] [] = 1 := by
    unfold calculateSimilarity
    rw [htok]
    simp
  exact ⟨h, by rw [h]; norm_num⟩

/-- C2: the set-based similarity is symmetric, and reflexive on non-empty
texts (indeed on all texts): the intersection and union of a token set with
itself coincide and are non-empty. -/
theorem calculateSimilarity_symm_refl (a b : List Char) :
    calculateSimilarity a b = calculateSimilarity b a ∧
    (a ≠ [] → calculateSimilarity a a = 1) := by
  constructor
  · unfold calculateSimilarity
    rw [Finset.inter_comm, Finset.union_comm]
  · intro _
    exact calculateSimilarity_self a

/-- Witness for C2 at the concrete texts "grow" and "flow". -/
theorem calculateSimilarity_symm_refl_witness :
    calculateSimilarity ("grow".data) ("flow".data) =
      calculateSimilarity ("flow".data) ("grow".data) ∧
    calculateSimilarity ("grow".data) ("grow".data) = 1 :=
  ⟨(calculateSimilarity_symm_refl ("grow".data) ("flow".data)).1,
   (calculateSimilarity_symm_refl ("grow".data) ("flow".data)).2 (by decide)⟩

theorem le_foldr_max (l : List Nat) (x : Nat) (hx : x ∈ l) : x ≤ l.foldr max 0 := by
  induction l with
  | nil => cases hx
  | cons a l ih =>
    rcases List.mem_cons.mp hx with h | h
    · subst h; exact le_max_left _ _
    · exact le_trans (ih h) (le_max_right _ _)

theorem id_lt_nextId (db : List Reflection) (r : Reflection) (hr : r ∈ db) :
    r.id < nextId db :=
  Nat.lt_succ_of_le (le_foldr_max _ _ (List.mem_map_of_mem Reflection.id hr))

/-- C3: the stage computed by `trackEvolution` is one more than the maximal
ancestor stage (0 when there are no ancestors), hence always at least 1, and
growth is reported exactly when the stage exceeds 1. -/
theorem trackEvolution_stage_spec (db : List Reflection) (thought : List Char) (tid : Nat) :
    (trackEvolution db thought tid).1.stage =
      1 + ((trackEvolution db thought tid).1.ancestors.map Reflection.evolutionStage).foldr max 0 ∧
    1 ≤ (trackEvolution db thought tid).1.stage ∧
    ((trackEvolution db thought tid).1.growthDetected = true ↔
      1 < (trackEvolution db thought tid).1.stage) := by
  refine ⟨?_, ?_, ?_⟩
  · simp [trackEvolution, Nat.add_comm]
  · simp [trackEvolution]
  · simp [trackEvolution]

/-- C4: ingestion is frame-preserving on previously stored rows — the updated
table is exactly the old table (every old row unchanged, stages included)
with one new row appended, whose id is the fresh `AUTOINCREMENT` id.  The
stage `UPDATE` only matches the fresh id, which no old row carries. -/
theorem updateStage_append_fresh (db : List Reflection) (nr : Reflection) (s : Nat)
    (h : ∀ r ∈ db, r.id ≠ nr.id) :
    updateStage (db ++ [nr]) nr.id s = db ++ [{ nr with evolutionStage := s }] := by
  unfold updateStage
  rw [List.map_append]
  congr 1
  · have hcongr : ∀ r ∈ db,
        (if r.id = nr.id then { r with evolutionStage := s } else r) = r := by
      intro r hr
      rw [if_neg (h r hr)]
    rw [List.map_congr_left hcongr]
    exact List.map_id db
  · simp

theorem reflectThought_frame (db : List Reflection) (thought : List Char) (now : Nat) :
    ∃ nr : Reflection, (reflectThought db thought now).1 = db ++ [nr] ∧
      nr.id = nextId db := by
  set tid := nextId db with htid
  set db1 : List Reflection := db ++ [⟨tid, thought, 1, now⟩] with hdb1
  set ns := (trackEvolution db1 thought tid).1.stage with hns
  refine ⟨⟨tid, thought, ns, now⟩, ?_, rfl⟩
  have hsnd : (reflectThought db thought now).1 = updateStage db1 tid ns := rfl
  rw [hsnd]
  exact updateStage_append_fresh db ⟨tid, thought, 1, now⟩ ns
    (fun r hr => Nat.ne_of_lt (id_lt_nextId db r hr))

/-- C5 (amended): each `createConnection` call appends exactly one row; in
particular the count of rows carrying a given (source, target, type) triple
grows by one on every re-insertion of that triple — duplicates accumulate,
nothing is upserted, and no error path exists for unknown ids. -/
theorem createConnection_append_spec (conns : List Connection) (s t : Nat)
    (ty : List Char) (str : ℚ) :
    countTriple (createConnection conns s t ty str) s t ty = countTriple conns s t ty + 1 ∧
    (createConnection conns s t ty str).length = conns.length + 1 := by
  constructor
  · simp [countTriple, createConnection, List.filter_append]
  · simp [createConnection]

/-- C5 (counterexample): inserting the same (source 1, target 2, type
"reflection") edge twice — with ids unknown to an empty thought store, so the
claimed `InvalidReferenceError` would have to fire — succeeds and leaves two
rows with the same triple in the table. -/
theorem createConnection_duplicate_triple :
    countTriple
      (createConnection
        (createConnection [] 1 2 ("reflection".data) (1/2)) 1 2 ("reflection".data) (1/2))
      1 2 ("reflection".data) = 2 := by
  decide

theorem visitTargets_spec (refls : List (Nat × MRef)) (strength : ℚ)
    (ts : List Nat) : ∀ (visited nextWave : List Nat) (entries : List WaveEntry),
    ∃ newIds newEntries,
      visitTargets refls strength ts visited nextWave entries =
        (visited ++ newIds, nextWave ++ newIds, entries ++ newEntries) ∧
      newIds.Nodup ∧ (∀ x ∈ newIds, x ∉ visited) ∧
      List.Sublist (newEntries.map WaveEntry.id) newIds := by
  induction ts with
  | nil =>
    intro visited nextWave entries
    exact ⟨[], [], by simp [visitTargets], List.nodup_nil, by simp, by simp⟩
  | cons t ts ih =>
    intro visited nextWave entries
    by_cases hmem : t ∈ visited
    · obtain ⟨ni, ne, heq, hnd, hout, hsub⟩ := ih visited nextWave entries
      exact ⟨ni, ne, by rw [visitTargets, if_pos hmem]; exact heq, hnd, hout, hsub⟩
    · cases hl : lookupA t refls with
      | none =>
        obtain ⟨ni, ne, heq, hnd, hout, hsub⟩ := ih (visited ++ [t]) (nextWave ++ [t]) entries
        refine ⟨t :: ni, ne, ?_, ?_, ?_, hsub.trans (List.sublist_cons_self t ni)⟩
        · rw [visitTargets, if_neg hmem, hl, heq, List.append_cons visited t ni,
            List.append_cons nextWave t ni]
        · refine List.nodup_cons.mpr ⟨fun hti => ?_, hnd⟩
          exact hout t hti (by simp)
        · intro x hx
          rcases List.mem_cons.mp hx with rfl | hx
          · exact hmem
          · intro hxv
            exact hout x hx (List.mem_append_left _ hxv)
      | some r =>
        obtain ⟨ni, ne, heq, hnd, hout, hsub⟩ := ih (visited ++ [t]) (nextWave ++ [t])
          (entries ++ [⟨t, r.original, r.resonance * strength⟩])
        refine ⟨t :: ni, ⟨t, r.original, r.resonance * strength⟩ :: ne, ?_, ?_, ?_, ?_⟩
        · rw [visitTargets, if_neg hmem, hl, heq, List.append_cons visited t ni,
            List.append_cons nextWave t ni,
            List.append_cons entries ⟨t, r.original, r.resonance * strength⟩ ne]
        · refine List.nodup_cons.mpr ⟨fun hti => ?_, hnd⟩
          exact hout t hti (by simp)
        · intro x hx
          rcases List.mem_cons.mp hx with rfl | hx
          · exact hmem
          · intro hxv
            exact hout x hx (List.mem_append_left _ hxv)
        · simpa using List.Sublist.cons₂ t hsub

theorem processWave_spec (st : EngineState) (strength : ℚ) (wave : List Nat) :
    ∀ (visited nw : List Nat) (en : List WaveEntry),
    ∃ newIds newEntries,
      wave.foldl
        (fun acc nodeId =>
          visitTargets st.reflections strength ((lookupA nodeId st.connections).getD [])
            acc.1 acc.2.1 acc.2.2)
        (visited, nw, en) =
        (visited ++ newIds, nw ++ newIds, en ++ newEntries) ∧
      newIds.Nodup ∧ (∀ x ∈ newIds, x ∉ visited) ∧
      List.Sublist (newEntries.map WaveEntry.id) newIds := by
  induction wave with
  | nil =>
    intro visited nw en
    exact ⟨[], [], by simp, List.nodup_nil, by simp, by simp⟩
  | cons nodeId rest ih =>
    intro visited nw en
    obtain ⟨ni1, ne1, heq1, hnd1, hout1, hsub1⟩ :=
      visitTargets_spec st.reflections strength
        ((lookupA nodeId st.connections).getD []) visited nw en
    obtain ⟨ni2, ne2, heq2, hnd2, hout2, hsub2⟩ := ih (visited ++ ni1) (nw ++ ni1) (en ++ ne1)
    refine ⟨ni1 ++ ni2, ne1 ++ ne2, ?_, ?_, ?_, ?_⟩
    · rw [List.foldl_cons, heq1, heq2, List.append_assoc, List.append_assoc,
        List.append_assoc]
    · refine List.nodup_append.mpr ⟨hnd1, hnd2, fun x hx1 hx2 => ?_⟩
      exact hout2 x hx2 (List.mem_append_right _ hx1)
    · intro x hx
      rcases List.mem_append.mp hx with hx | hx
      · exact hout1 x hx
      · intro hxv
        exact hout2 x hx (List.mem_append_left _ hxv)
    · rw [List.map_append]
      exact List.Sublist.append hsub1 hsub2

theorem traceAux_spec (st : EngineState) :
    ∀ (r : Nat) (visited wave : List Nat) (d : Nat),
    (traceAux st visited wave d r).1.length ≤ r ∧
    ((traceAux st visited wave d r).1.map waveIds).flatten.Nodup ∧
    (∀ x ∈ ((traceAux st visited wave d r).1.map waveIds).flatten, x ∉ visited) := by
  intro r
  induction r with
  | zero => intro visited wave d; simp [traceAux]
  | succ r ih =>
    intro visited wave d
    simp only [traceAux]
    by_cases hw : wave.isEmpty
    · simp [hw]
    · rw [if_neg hw]
      obtain ⟨ni, ne, heq, hnd, hout, hsub⟩ :=
        processWave_spec st (1 / (d : ℚ)) wave visited [] []
      have hstep : processWave st (1 / (d : ℚ)) wave visited = (visited ++ ni, ni, ne) := by
        unfold processWave
        simpa using heq
      rw [hstep]
      obtain ⟨ihlen, ihnd, ihout⟩ := ih (visited ++ ni) ni (d + 1)
      by_cases hne : ne.isEmpty
      · rw [if_pos hne]
        refine ⟨le_trans ihlen (Nat.le_succ r), ihnd, fun x hx hxv => ?_⟩
        exact ihout x hx (List.mem_append_left _ hxv)
      · rw [if_neg hne]
        refine ⟨?_, ?_, ?_⟩
        · simpa using Nat.succ_le_succ ihlen
        · simp only [List.map_cons, List.flatten_cons]
          refine List.nodup_append.mpr ⟨?_, ihnd, ?_⟩
          · exact List.Nodup.sublist hsub hnd
          · intro x hx1 hx2
            have hxni : x ∈ ni := hsub.subset hx1
            exact ihout x hx2 (List.mem_append_right _ hxni)
        · simp only [List.map_cons, List.flatten_cons]
          intro x hx hxv
          rcases List.mem_append.mp hx with hx | hx
          · exact hout x (hsub.subset hx) hxv
          · exact ihout x hx (List.mem_append_left _ hxv)

/-- C6: ripple tracing produces at most `maxDistance` waves, and no node is
ever visited twice — the ids across all waves (each node's single wave
contribution) are pairwise distinct, and none of them is the origin. -/
theorem traceRipples_bounded_no_revisit (st : EngineState) (originId maxDistance : Nat) :
    (traceRipples st originId maxDistance).waves.length ≤ maxDistance ∧
    ((traceRipples st originId maxDistance).waves.map waveIds).flatten.Nodup ∧
    originId ∉ ((traceRipples st originId maxDistance).waves.map waveIds).flatten := by
  obtain ⟨hlen, hnd, hout⟩ := traceAux_spec st maxDistance [originId] [originId] 1
  exact ⟨hlen, hnd, fun hx => hout originId hx (by simp)⟩

theorem traceAux_nil_wave (st : EngineState) (visited : List Nat) (d r : Nat) :
    traceAux st visited [] d r = ([], 0) := by
  cases r <;> simp [traceAux]

theorem lookupA_isSome_of_key {α : Type} (l : List (Nat × α)) (k : Nat)
    (h : ∃ p ∈ l, p.1 = k) : (lookupA k l).isSome := by
  induction l with
  | nil => simp at h
  | cons p rest ih =>
    obtain ⟨q, hq, hqk⟩ := h
    rcases List.mem_cons.mp hq with rfl | hq
    · simp [lookupA, hqk]
    · by_cases hp : p.1 = k
      · simp [lookupA, hp]
      · simpa [lookupA, hp] using ih ⟨q, hq, hqk⟩

theorem lookupA_some_mem {α : Type} (l : List (Nat × α)) (k : Nat) (v : α)
    (h : lookupA k l = some v) : ∃ p ∈ l, p.1 = k := by
  induction l with
  | nil => simp [lookupA] at h
  | cons p rest ih =>
    by_cases hp : p.1 = k
    · exact ⟨p, List.mem_cons_self p rest, hp⟩
    · rw [lookupA, if_neg hp] at h
      obtain ⟨q, hq, hqk⟩ := ih h
      exact ⟨q, List.mem_cons_of_mem p hq, hqk⟩

/-- C7: ripple tracing from an origin with no outgoing connection entry — in
particular from an origin absent from a well-formed corpus — returns the
well-formed empty result: no waves and zero total impact, with no error path
involved. -/
theorem traceRipples_empty_origin (st : EngineState) (originId maxDistance : Nat)
    (h : connTargets st originId = [] ∨
      (wellFormedState st ∧ lookupA originId st.reflections = none)) :
    traceRipples st originId maxDistance = ⟨[], 0⟩ := by
  have hconn : connTargets st originId = [] := by
    rcases h with h | ⟨hwf, habs⟩
    · exact h
    · unfold connTargets
      cases hl : lookupA originId st.connections with
      | none => rfl
      | some ts =>
        obtain ⟨p, hp, hpk⟩ := lookupA_some_mem _ _ _ hl
        obtain ⟨q, hq, hqk⟩ := hwf p hp
        have := lookupA_isSome_of_key st.reflections originId ⟨q, hq, hqk.trans hpk⟩
        rw [habs] at this
        simp at this
  cases maxDistance with
  | zero => rfl
  | succ m =>
    unfold traceRipples traceAux
    have hstep : processWave st (1 / ((1 : Nat) : ℚ)) [originId] [originId] =
        ([originId], [], []) := by
      unfold processWave
      rw [List.foldl_cons, List.foldl_nil]
      have : (lookupA originId st.connections).getD [] = [] := hconn
      rw [this]
      rfl
    simp only [List.isEmpty_cons, Bool.false_eq_true, if_false, hstep,
      List.isEmpty_nil, if_true]
    rw [traceAux_nil_wave]

/-- Witness for C7: a state holding one stored thought and no connections;
tracing from its id yields no waves and zero impact. -/
theorem traceRipples_empty_origin_witness :
    traceRipples ⟨[(5, ⟨("origin".data), 0, 1, []⟩)], []⟩ 5 3 = ⟨[], 0⟩ :=
  traceRipples_empty_origin ⟨[(5, ⟨("origin".data), 0, 1, []⟩)], []⟩ 5 3 (Or.inl rfl)

theorem foldl_add_sum (l : List ℚ) : ∀ init : ℚ, l.foldl (· + ·) init = init + l.sum := by
  induction l with
  | nil => intro init; simp
  | cons a l ih =>
    intro init
    rw [List.foldl_cons, ih, List.sum_cons]
    ring

theorem foldl_add_f (f : ℚ → ℚ) (l : List ℚ) : ∀ init : ℚ,
    l.foldl (fun s g => s + f g) init = init + (l.map f).sum := by
  induction l with
  | nil => intro init; simp
  | cons a l ih =>
    intro init
    rw [List.foldl_cons, ih, List.map_cons, List.sum_cons]
    ring

theorem jsReduceSum_eq_sum (l : List ℚ) : jsReduceSum l = l.sum := by
  unfold jsReduceSum
  rw [foldl_add_sum, zero_add]

theorem avgGapOf_eq_specMean (l : List ℚ) : avgGapOf l = specMean l := by
  unfold avgGapOf specMean
  rw [jsReduceSum_eq_sum]

theorem varianceOf_eq_specVariance (l : List ℚ) : varianceOf l = specVariance l := by
  unfold varianceOf specVariance
  rw [foldl_add_f (fun g => (g - avgGapOf l) * (g - avgGapOf l)) l 0, zero_add,
    avgGapOf_eq_specMean]

theorem gapsOf_nonneg (l : List ℚ) :
    List.Sorted (· ≤ ·) l → ∀ g ∈ gapsOf l, 0 ≤ g := by
  induction l with
  | nil => intro _ g hg; simp [gapsOf] at hg
  | cons a rest ih =>
    cases rest with
    | nil => intro _ g hg; simp [gapsOf] at hg
    | cons b rest2 =>
      intro h g hg
      rw [gapsOf] at hg
      rcases List.mem_cons.mp hg with rfl | hg
      · have hab : a ≤ b := (List.sorted_cons.mp h).1 b (List.mem_cons_self b rest2)
        linarith
      · exact ih (List.sorted_cons.mp h).2 g hg

theorem calculateConsistency_bounds (thoughts : List ThoughtRow) :
    0 ≤ calculateConsistency thoughts ∧ calculateConsistency thoughts ≤ 1 := by
  unfold calculateConsistency
  by_cases h : thoughts.length < 2
  · simp [h]
  · rw [if_neg h]
    have hsorted : List.Sorted (· ≤ ·)
        (sortTimestamps (thoughts.map ThoughtRow.createdAt)) :=
      List.sorted_insertionSort _ _
    have hgaps : ∀ g ∈ interArrivalGaps thoughts, 0 ≤ g := fun g hg =>
      gapsOf_nonneg _ hsorted g hg
    have hmean : 0 ≤ avgGapOf (interArrivalGaps thoughts) := by
      unfold avgGapOf
      apply div_nonneg
      · rw [jsReduceSum_eq_sum]
        exact List.sum_nonneg hgaps
      · positivity
    have hvar : 0 ≤ varianceOf (interArrivalGaps thoughts) := by
      unfold varianceOf
      apply div_nonneg
      · rw [foldl_add_f
          (fun g => (g - avgGapOf (interArrivalGaps thoughts)) *
            (g - avgGapOf (interArrivalGaps thoughts))) _ 0, zero_add]
        apply List.sum_nonneg
        intro x hx
        obtain ⟨g, _, rfl⟩ := List.mem_map.mp hx
        exact mul_self_nonneg _
      · positivity
    have hq : 0 ≤ varianceOf (interArrivalGaps thoughts) /
        avgGapOf (interArrivalGaps thoughts) := div_nonneg hvar hmean
    constructor
    · positivity
    · rw [div_le_one (by linarith)]
      linarith

theorem calculateEvolution_bounds (thoughts : List ThoughtRow) :
    0 ≤ calculateEvolution thoughts ∧ calculateEvolution thoughts ≤ 1 := by
  unfold calculateEvolution
  by_cases h : thoughts.length < 2
  · simp [h]
  · rw [if_neg h]
    constructor
    · have := calculateSimilarity_le_one ((thoughts.head?.getD ⟨[], 0⟩).thought)
        ((thoughts.getLast?.getD ⟨[], 0⟩).thought)
      linarith
    · have := calculateSimilarity_nonneg ((thoughts.head?.getD ⟨[], 0⟩).thought)
        ((thoughts.getLast?.getD ⟨[], 0⟩).thought)
      linarith

/-- C8 (amended): the composite theme depth is always nonnegative, but its
only upper bound is `(3·count + 7)/100` with the raw occurrence count as
frequency — the claimed normalisation into `[0,1]` does not exist, and the
bound exceeds 1 as soon as a theme has more than 31 occurrences. -/
theorem calculateThemeDepth_bounds (count : Nat) (thoughts : List ThoughtRow) :
    0 ≤ calculateThemeDepth count thoughts ∧
    calculateThemeDepth count thoughts ≤ ((count : ℚ) * 3 + 7) / 100 := by
  obtain ⟨hc0, hc1⟩ := calculateConsistency_bounds thoughts
  obtain ⟨he0, he1⟩ := calculateEvolution_bounds thoughts
  have hn : 0 ≤ (count : ℚ) := Nat.cast_nonneg count
  unfold calculateThemeDepth
  constructor <;> linarith

theorem esw_water : extractSignificantWords waterWord = [waterWord] := by decide

theorem bumpTheme_water (t : ThoughtRow) (d : ThemeData) :
    bumpTheme t [(waterWord, d)] waterWord =
      [(waterWord, ⟨d.count + 1, d.thoughts ++ [t],
        calculateThemeDepth (d.count + 1) (d.thoughts ++ [t])⟩)] := by
  simp [bumpTheme]

theorem foldStep_water (th : ThoughtRow) (hth : th.thought = waterWord) (d : ThemeData) :
    (extractSignificantWords th.thought).foldl (bumpTheme th) [(waterWord, d)] =
      [(waterWord, ⟨d.count + 1, d.thoughts ++ [th],
        calculateThemeDepth (d.count + 1) (d.thoughts ++ [th])⟩)] := by
  rw [hth, esw_water, List.foldl_cons, List.foldl_nil, bumpTheme_water]

theorem foldStep_water_nil (th : ThoughtRow) (hth : th.thought = waterWord) :
    (extractSignificantWords th.thought).foldl (bumpTheme th) [] =
      [(waterWord, ⟨1, [th], calculateThemeDepth 1 [th]⟩)] := by
  rw [hth, esw_water, List.foldl_cons, List.foldl_nil]
  rfl

theorem themeFold_water (rows : List ThoughtRow) :
    (∀ r ∈ rows, r.thought = waterWord) → ∀ d : ThemeData,
    rows.foldl
        (fun tm th => (extractSignificantWords th.thought).foldl (bumpTheme th) tm)
        [(waterWord, d)] =
      [(waterWord, themeAccum d rows)] := by
  induction rows with
  | nil => intro _ d; rfl
  | cons t rest ih =>
    intro hall d
    rw [List.foldl_cons, foldStep_water t (hall t (List.mem_cons_self t rest)) d,
      ih (fun r hr => hall r (List.mem_cons_of_mem t hr))]
    cases rest with
    | nil => simp [themeAccum]
    | cons r2 rest2 =>
      simp only [themeAccum, List.length_cons, List.append_assoc,
        List.singleton_append, List.cons_append, List.nil_append]
      refine congrArg (fun x => [(waterWord, x)]) ?_
      have hcount : d.count + 1 + (rest2.length + 1) = d.count + (rest2.length + 1 + 1) := by
        omega
      rw [hcount]

theorem themeFold_water_from_nil (rows : List ThoughtRow)
    (hall : ∀ r ∈ rows, r.thought = waterWord) (hne : rows ≠ []) :
    rows.foldl
        (fun tm th => (extractSignificantWords th.thought).foldl (bumpTheme th) tm)
        [] =
      [(waterWord, ⟨rows.length, rows, calculateThemeDepth rows.length rows⟩)] := by
  cases rows with
  | nil => exact absurd rfl hne
  | cons t rest =>
    rw [List.foldl_cons, foldStep_water_nil t (hall t (List.mem_cons_self t rest)),
      themeFold_water rest (fun r hr => hall r (List.mem_cons_of_mem t hr))]
    cases rest with
    | nil => rfl
    | cons r2 rest2 =>
      simp only [themeAccum, List.length_cons, List.singleton_append]
      refine congrArg (fun x => [(waterWord, x)]) ?_
      have hcount : 1 + (rest2.length + 1) = rest2.length + 1 + 1 := by omega
      rw [hcount]

theorem extractThemes_corpus33 :
    extractThemes corpus33 =
      [⟨waterWord, 33, corpus33, calculateThemeDepth 33 corpus33⟩] := by
  have hall : ∀ r ∈ corpus33, r.thought = waterWord := by
    intro r hr
    obtain ⟨i, _, rfl⟩ := List.mem_map.mp hr
    rfl
  have hne : corpus33 ≠ [] := by
    unfold corpus33
    simp
  have hlen : corpus33.length = 33 := by
    unfold corpus33
    simp
  unfold extractThemes
  rw [themeFold_water_from_nil corpus33 hall hne, hlen, List.map_cons, List.map_nil]
  rfl

theorem map_createdAt_corpus33 :
    corpus33.map ThoughtRow.createdAt = (List.range 33).map (fun i : Nat => (i : ℚ)) := by
  unfold corpus33
  rw [List.map_map]
  rfl

theorem sorted_cast_range (n : Nat) :
    List.Sorted (· ≤ ·) ((List.range n).map (fun i : Nat => (i : ℚ))) := by
  exact List.Pairwise.map _ (fun a b h => by exact_mod_cast Nat.le_of_lt h)
    (List.pairwise_lt_range n)

theorem gapsOf_cast_range' (n : Nat) : ∀ k : Nat,
    gapsOf ((List.range' k n).map (fun i : Nat => (i : ℚ))) = List.replicate (n - 1) (1 : ℚ) := by
  induction n with
  | zero => intro k; rfl
  | succ m ih =>
    intro k
    cases m with
    | zero => rfl
    | succ m2 =>
      rw [List.range'_succ, List.map_cons, List.range'_succ, List.map_cons, gapsOf,
        ← List.map_cons, ← List.range'_succ, ih (k + 1)]
      have h1 : ((k + 1 : Nat) : ℚ) - ((k : Nat) : ℚ) = 1 := by
        push_cast
        ring
      rw [h1]
      have h2 : m2 + 1 + 1 - 1 = (m2 + 1 - 1) + 1 := by omega
      rw [h2, List.replicate_succ]

theorem gaps_corpus33 : interArrivalGaps corpus33 = List.replicate 32 (1 : ℚ) := by
  unfold interArrivalGaps sortTimestamps
  rw [map_createdAt_corpus33, List.Sorted.insertionSort_eq (sorted_cast_range 33),
    List.range_eq_range', gapsOf_cast_range' 33 0]

theorem avgGap_replicate32 : avgGapOf (List.replicate 32 (1 : ℚ)) = 1 := by
  unfold avgGapOf
  rw [jsReduceSum_eq_sum, List.sum_replicate]
  norm_num

theorem variance_replicate32 : varianceOf (List.replicate 32 (1 : ℚ)) = 0 := by
  unfold varianceOf
  rw [avgGap_replicate32, foldl_add_f (fun g => (g - 1) * (g - 1)) _ 0, zero_add,
    List.map_replicate]
  norm_num

theorem consistency_corpus33 : calculateConsistency corpus33 = 1 := by
  have hlen : ¬ (corpus33.length < 2) := by
    unfold corpus33
    simp
  unfold calculateConsistency
  rw [if_neg hlen, gaps_corpus33, avgGap_replicate32, variance_replicate32]
  norm_num

theorem evolution_corpus33 : calculateEvolution corpus33 = 0 := by
  have hlen : ¬ (corpus33.length < 2) := by
    unfold corpus33
    simp
  unfold calculateEvolution
  rw [if_neg hlen]
  have hh : (corpus33.head?.getD ⟨[], 0⟩).thought = waterWord := rfl
  have hl : (corpus33.getLast?.getD ⟨[], 0⟩).thought = waterWord := rfl
  rw [hh, hl, calculateSimilarity_self]
  ring

theorem depth_corpus33 : calculateThemeDepth 33 corpus33 = 103 / 100 := by
  unfold calculateThemeDepth
  rw [consistency_corpus33, evolution_corpus33]
  norm_num

/-- C8 (counterexample): a corpus of 33 thoughts all saying "water" at times
0..32 produces a single extracted theme whose depth is 103/100 — outside
[0,1], because the formula uses the raw occurrence count, not a normalised
frequency. -/
theorem extractThemes_depth_exceeds_one :
    (extractThemes corpus33).map ThemeEntry.depth = [(103 : ℚ) / 100] ∧
    ¬ ((103 : ℚ) / 100 ≤ 1) := by
  constructor
  · rw [extractThemes_corpus33, List.map_cons, List.map_nil]
    rw [show (⟨waterWord, 33, corpus33, calculateThemeDepth 33 corpus33⟩ :
      ThemeEntry).depth = calculateThemeDepth 33 corpus33 from rfl, depth_corpus33]
  · norm_num

/-- C9 (amended): for two or more occurrences the consistency is
`1 / (1 + variance(gaps) / mean(gaps))` over the inter-arrival gaps of the
sorted occurrence timestamps, exactly as claimed — but for a single
occurrence the code returns 0, not 1 (`if (thoughts.length < 2) return 0`). -/
theorem calculateConsistency_spec (thoughts : List ThoughtRow) :
    (thoughts.length < 2 → calculateConsistency thoughts = 0) ∧
    (2 ≤ thoughts.length → calculateConsistency thoughts =
      1 / (1 + specVariance (interArrivalGaps thoughts) /
        specMean (interArrivalGaps thoughts))) := by
  constructor
  · intro h
    unfold calculateConsistency
    rw [if_pos h]
  · intro h
    unfold calculateConsistency
    rw [if_neg (by omega), varianceOf_eq_specVariance, avgGapOf_eq_specMean]

/-- C9 (counterexample): a theme with exactly one occurrence gets
consistency 0, where the claim requires 1. -/
theorem calculateConsistency_single_zero :
    calculateConsistency [⟨waterWord, 0⟩] = 0 ∧ (0 : ℚ) ≠ 1 := by
  constructor
  · unfold calculateConsistency
    norm_num
  · norm_num

/-- Witness for C9 at concrete one- and two-occurrence lists. -/
theorem calculateConsistency_spec_witness :
    calculateConsistency [⟨waterWord, 0⟩] = 0 ∧
    calculateConsistency [⟨waterWord, 0⟩, ⟨waterWord, 2⟩] =
      1 / (1 + specVariance (interArrivalGaps [⟨waterWord, 0⟩, ⟨waterWord, 2⟩]) /
        specMean (interArrivalGaps [⟨waterWord, 0⟩, ⟨waterWord, 2⟩])) :=
  ⟨(calculateConsistency_spec [⟨waterWord, 0⟩]).1 (by simp),
   (calculateConsistency_spec [⟨waterWord, 0⟩, ⟨waterWord, 2⟩]).2 (by simp)⟩

/-- C10: the echoes recorded for a thought are sorted by descending combined
score `0.6·similarity + 0.4·keywordOverlap`, and their number is capped at 3
for surface, 7 for deep, 15 for abyss, and 7 for any other depth value. -/
theorem findEchoes_sorted_capped (simf : List Char → List Char → ℚ)
    (refls : List (Nat × MRef)) (thought depth : List Char) :
    List.Sorted echoBetter (findEchoes simf refls thought depth) ∧
    (findEchoes simf refls thought depth).length ≤ echoLimit depth ∧
    echoLimit ("surface".data) = 3 ∧ echoLimit ("deep".data) = 7 ∧
    echoLimit ("abyss".data) = 15 ∧
    (depth ≠ ("surface".data) → depth ≠ ("deep".data) → depth ≠ ("abyss".data) →
      echoLimit depth = 7) := by
  refine ⟨?_, ?_, rfl, rfl, rfl, ?_⟩
  · unfold findEchoes
    exact List.Pairwise.sublist (List.take_sublist _ _) (List.sorted_insertionSort _ _)
  · unfold findEchoes
    exact List.length_take_le _ _
  · intro h1 h2 h3
    unfold echoLimit
    rw [if_neg h1, if_neg h2, if_neg h3]

/-- Witness for C10 at an unrecognized depth value and empty corpus. -/
theorem findEchoes_sorted_capped_witness :
    echoLimit ("tidal".data) = 7 ∧
    (findEchoes (fun _ _ => 0) [] [] ("tidal".data)).length ≤ 7 := by
  have h := findEchoes_sorted_capped (fun _ _ => 0) [] [] ("tidal".data)
  have h7 : echoLimit ("tidal".data) = 7 :=
    h.2.2.2.2.2 (by decide) (by decide) (by decide)
  refine ⟨h7, ?_⟩
  have h2 := h.2.1
  rwa [h7] at h2
